import Mathlib

/-!
# Verification of `tsort` (src/plan/task/apkdag.go)

`tsort` resolves the transitive dependencies of a list of target packages
and returns them in installation order.  It has two phases:

* the *build phase* (lines 175-229): goroutines started through an
  `errgroup` run the closure `add`, which registers a package in the vertex
  table `pkgs`, records the edge to its dependent and, once per package,
  calls `getDeps` and starts one further `add` per dependency;
* the *sort phase* (lines 231-255): Kahn's algorithm over the vertex table.

## Embedding

* A `*pkgVtx` pointer is identified with the package name: the build phase
  allocates exactly one vertex per name and never removes one, so the two
  coincide.  The fields of the vertices are kept as functions of the name
  (`deps`, `revdeps`, `added`), which stay readable after the sort phase has
  deleted the name from the map `pkgs`, as the pointers held by `ready`,
  `next` and `revdeps` do in Go.
* A Go set `map[*pkgVtx]struct{}` is a list of names used through membership
  only: insertion is `List.insert`, `delete` removes every occurrence and
  `len(m) == 0` is emptiness.
* Go iterates a map in an unspecified order.  Every `range` over a map reads
  its order from a `MapOrder`, which may return a different permutation at
  every use; theorems quantify over all of them.
* The goroutines of the errgroup are a list of pending `add` calls.  A
  schedule (a list of numbers) selects at every step which pending call runs
  next; a call runs atomically.  The mutex section of `add` is atomic in Go,
  and the `singleflight` group together with the `added` flag lets exactly
  the first call for a name reach `getDeps`, which is what the atomic call
  does.  The schedule is also the fuel of the build loop.
* `getDeps` is a function from the package name to an error or a list of
  names; Go `error` values are represented by their message.  The context
  passed to `getDeps` is not represented: after a failure the errgroup
  cancels it, the goroutines still run to their end, and `eg.Wait()` returns
  the first error, which the later calls cannot change.
* The result `([]string, error)` is a pair of a list (`nil` is `[]`) and an
  optional error.  The outer `Option` is `none` when the fuel ran out.
-/

namespace ApkDag

/-- A Go `error`, represented by its message. -/
abbrev Error := String

/-- Pointwise update of a field of the vertex for name `k`. -/
def upd {β : Type} (f : String → β) (k : String) (v : β) : String → β :=
  fun x => if x = k then v else f x

/-- The vertex table of `tsort`: the keys of the map `pkgs` and, for every
name, the fields `deps`, `revdeps` and `added` of the vertex allocated for
it. -/
structure Graph where
  pkgs : List String
  deps : String → List String
  revdeps : String → List String
  added : String → Bool

/-- The table after `pkgs := make(map[string]*pkgVtx)`. -/
def Graph.empty : Graph :=
  { pkgs := [], deps := fun _ => [], revdeps := fun _ => [], added := fun _ => false }

/-- The state shared by the goroutines of the build phase: the vertex table,
the `add` calls handed to `eg.Go` that have not run yet (package, dependent),
the first error recorded by the errgroup, and the log of `getDeps` calls. -/
structure BuildState where
  g : Graph
  pending : List (String × String)
  err : Option Error
  calls : List String

/-- Lines 184-192 of `add`: get or create the vertex of `pkgName`. -/
def getOrCreate (g : Graph) (pkgName : String) : Graph :=
  if pkgName ∈ g.pkgs then g
  else
    { pkgs := g.pkgs ++ [pkgName]
      deps := upd g.deps pkgName []
      revdeps := upd g.revdeps pkgName []
      added := upd g.added pkgName false }

/-- Lines 193-196 of `add`: when `rdep` is a key of `pkgs`, record the edge
`rdep → pkgName` in both directions. -/
def recordEdge (g : Graph) (pkgName rdep : String) : Graph :=
  if rdep ∈ g.pkgs then
    { g with
      revdeps := upd g.revdeps pkgName ((g.revdeps pkgName).insert rdep)
      deps := upd g.deps rdep ((g.deps rdep).insert pkgName) }
  else g

/-- The section of `add` that runs under the mutex (lines 183-197). -/
def lockSection (g : Graph) (pkgName rdep : String) : Graph :=
  recordEdge (getOrCreate g pkgName) pkgName rdep

/-- The closure `add` (lines 182-218), run atomically on the shared state.
An error returned by `add` reaches the errgroup, which keeps the first one. -/
def add (getDeps : String → Except Error (List String)) (s : BuildState)
    (pkgName rdep : String) : BuildState :=
  let g := lockSection s.g pkgName rdep
  if g.added pkgName then { s with g := g }
  else
    let g2 : Graph := { g with added := upd g.added pkgName true }
    match getDeps pkgName with
    | .error e =>
      { g := g2, pending := s.pending
        err := if s.err.isSome then s.err else some e
        calls := s.calls ++ [pkgName] }
    | .ok deps =>
      { g := g2, pending := s.pending ++ deps.map (fun depName => (depName, pkgName))
        err := s.err
        calls := s.calls ++ [pkgName] }

/-- Run the pending `add` call at position `i`. -/
def runTask (getDeps : String → Except Error (List String)) (s : BuildState)
    (i : Nat) : BuildState :=
  match s.pending.get? i with
  | none => s
  | some (pkgName, rdep) => add getDeps { s with pending := s.pending.eraseIdx i } pkgName rdep

/-- The state after lines 220-225: one pending `add(pkgName, "")` per target. -/
def initState (targetPkgNames : List String) : BuildState :=
  { g := Graph.empty
    pending := targetPkgNames.map (fun pkgName => (pkgName, ""))
    err := none
    calls := [] }

/-- Execution of the goroutines until `eg.Wait()` returns (line 227): while a
call is pending, the schedule picks the next one.  `none`: the schedule ended
with calls still pending. -/
def buildLoop (getDeps : String → Except Error (List String)) :
    List Nat → BuildState → Option BuildState
  | [], s => if s.pending.isEmpty then some s else none
  | c :: cs, s =>
    if s.pending.isEmpty then some s
    else buildLoop getDeps cs (runTask getDeps s (c % s.pending.length))

/-- The build phase of `tsort` (lines 175-227). -/
def build (getDeps : String → Except Error (List String)) (sched : List Nat)
    (targetPkgNames : List String) : Option BuildState :=
  buildLoop getDeps sched (initState targetPkgNames)

/-- The order in which `range` visits the elements of a Go map: at its
`t`-th use, some permutation of the elements. -/
structure MapOrder where
  range : Nat → List String → List String
  perm : ∀ t l, (range t l).Perm l

/-- The map order that visits the elements as stored. -/
def MapOrder.stored : MapOrder := ⟨fun _ l => l, fun _ l => List.Perm.refl l⟩

/-- The map order that visits the elements in reverse. -/
def MapOrder.reversed : MapOrder := ⟨fun _ l => l.reverse, fun _ l => List.reverse_perm l⟩

/-- Lines 242-247: for every `dep` of the visited reverse dependencies of
`pkg`, delete `pkg` from `dep.deps` and append `dep` to `next` when its
`deps` became empty. -/
def release (pkg : String) : List String → Graph → List String → Graph × List String
  | [], g, next => (g, next)
  | dep :: rest, g, next =>
    let g1 : Graph := { g with deps := upd g.deps dep ((g.deps dep).filter (fun x => x != pkg)) }
    release pkg rest g1 (if (g1.deps dep).isEmpty then next ++ [dep] else next)

/-- Lines 240-249: the loop over `ready`.  The `range` over `pkg.revdeps`
happens when `sorted` has just received `pkg`; the length of `sorted` is the
time stamp given to the map order. -/
def drain (ord : MapOrder) :
    List String → Graph → List String → List String → Graph × List String × List String
  | [], g, sorted, next => (g, sorted, next)
  | pkg :: ready, g, sorted, next =>
    let sorted1 := sorted ++ [pkg]
    let r := release pkg (ord.range sorted1.length (g.revdeps pkg)) g next
    let g2 : Graph := { r.1 with pkgs := r.1.pkgs.filter (fun x => x != pkg) }
    drain ord ready g2 sorted1 r.2

/-- Lines 238-251: `for len(ready) > 0`.  `none`: out of fuel. -/
def sortLoop (ord : MapOrder) : Nat → Graph → List String → List String →
    Option (Graph × List String)
  | 0, _, _, _ => none
  | fuel + 1, g, sorted, ready =>
    if ready.isEmpty then some (g, sorted)
    else
      let r := drain ord ready g sorted []
      sortLoop ord fuel r.1 r.2.1 r.2.2

/-- Lines 232-237: the vertices of `pkgs` without dependencies. -/
def initReady (ord : MapOrder) (g : Graph) : List String :=
  (ord.range 0 g.pkgs).filter (fun pkg => (g.deps pkg).isEmpty)

/-- The message of the error of line 253. -/
def cycleError : Error := "cycle detected"

/-- The sort phase of `tsort` (lines 231-255). -/
def sortPhase (ord : MapOrder) (fuel : Nat) (g : Graph) : Option (List String × Option Error) :=
  match sortLoop ord fuel g [] (initReady ord g) with
  | none => none
  | some (g1, sorted) =>
    if g1.pkgs.length > 0 then some ([], some cycleError) else some (sorted, none)

/-- The function `tsort` (lines 166-256). -/
def tsort (ord : MapOrder) (fuel : Nat) (sched : List Nat) (targetPkgNames : List String)
    (getDeps : String → Except Error (List String)) : Option (List String × Option Error) :=
  match build getDeps sched targetPkgNames with
  | none => none
  | some s =>
    match s.err with
    | some e => some ([], some e)
    | none => sortPhase ord fuel s.g

/-- A `getDeps` that always succeeds, with the list `fetch` gives. -/
def okDeps (fetch : String → List String) : String → Except Error (List String) :=
  fun pkgName => Except.ok (fetch pkgName)

/-- The vertex table when `eg.Wait()` has returned (line 227); the empty
table when the schedule ended before the build did. -/
def builtGraph (getDeps : String → Except Error (List String)) (sched : List Nat)
    (targetPkgNames : List String) : Graph :=
  match build getDeps sched targetPkgNames with
  | some s => s.g
  | none => Graph.empty

/-- The dependency lists of the diamond scenario: app → lib1, lib2 → libcore. -/
def diamondFetch : String → List String := fun pkgName =>
  if pkgName = "app" then ["lib1", "lib2"]
  else if pkgName = "lib1" then ["libcore"]
  else if pkgName = "lib2" then ["libcore"]
  else []

/-- The `getDeps` of the diamond scenario. -/
def diamondDeps : String → Except Error (List String) := okDeps diamondFetch

/-- The dependency lists of the cycle scenario: x → y → x. -/
def cycleFetch : String → List String := fun pkgName =>
  if pkgName = "x" then ["y"]
  else if pkgName = "y" then ["x"]
  else []

/-- The `getDeps` of the cycle scenario. -/
def cycleDeps : String → Except Error (List String) := okDeps cycleFetch

/-- A `getDeps` that fails for lib1: app → lib1, lib2. -/
def failingDeps : String → Except Error (List String) := fun pkgName =>
  if pkgName = "app" then Except.ok ["lib1", "lib2"]
  else if pkgName = "lib1" then Except.error "exit status 1"
  else Except.ok []

/-- Dependency lists in which the package b depends on the package whose
name is the empty string. -/
def emptyNameFetch : String → List String := fun pkgName =>
  if pkgName = "b" then [""] else []

/-- The error message `e` contains the package name `pkgName`. -/
def Names (e : Error) (pkgName : String) : Prop := pkgName.data <:+: e.data

instance (e : Error) (pkgName : String) : Decidable (Names e pkgName) := by
  unfold Names
  infer_instance

/-! ## Definitions used by the statements and proofs -/

/-- The edge recorded by `lockSection g p r`, if any: `r → p` when `r` is a
key after `p` was registered. -/
def recorded (g : Graph) (p r : String) : Prop := r ∈ g.pkgs ∨ r = p

/-- The dependencies that `getDeps` reports for `p`; none when it fails. -/
def depsOf (getDeps : String → Except Error (List String)) (p : String) : List String :=
  match getDeps p with
  | .ok l => l
  | .error _ => []

/-- The packages reachable from the targets through the lists returned by
`getDeps`. -/
inductive Reach (getDeps : String → Except Error (List String)) (targets : List String) :
    String → Prop
  | target {t : String} : t ∈ targets → Reach getDeps targets t
  | dep {p q : String} : Reach getDeps targets p → q ∈ depsOf getDeps p →
      Reach getDeps targets q

/-- What holds of the shared state between two `add` calls of a build from
`targets`. -/
structure BuildInv (getDeps : String → Except Error (List String)) (targets : List String)
    (s : BuildState) : Prop where
  sym : ∀ a b, b ∈ s.g.deps a ↔ a ∈ s.g.revdeps b
  closed : ∀ a b, b ∈ s.g.deps a → a ∈ s.g.pkgs ∧ b ∈ s.g.pkgs
  nodupPkgs : s.g.pkgs.Nodup
  nodupRev : ∀ b, (s.g.revdeps b).Nodup
  added_iff : ∀ x, s.g.added x = true ↔ x ∈ s.g.pkgs
  calls_nodup : s.calls.Nodup
  calls_iff : ∀ x, x ∈ s.calls ↔ x ∈ s.g.pkgs
  pend_ok : ∀ q d, (q, d) ∈ s.pending →
    Reach getDeps targets q ∧ (d = "" ∨ (d ∈ s.g.pkgs ∧ q ∈ depsOf getDeps d))
  pkgs_reach : ∀ x, x ∈ s.g.pkgs → Reach getDeps targets x
  targets_in : ∀ t, t ∈ targets → t ∈ s.g.pkgs ∨ (t, "") ∈ s.pending
  succ_in : ∀ x, x ∈ s.g.pkgs → ∀ q, q ∈ depsOf getDeps x →
    (q, x) ∈ s.pending ∨ (q ∈ s.g.pkgs ∧ q ∈ s.g.deps x)
  edge_sound : ∀ a b, b ∈ s.g.deps a → a = "" ∨ b ∈ depsOf getDeps a
  err_sound : ∀ e, s.err = some e → ∃ x, x ∈ s.calls ∧ getDeps x = Except.error e
  err_complete : s.err = none → ∀ x, x ∈ s.calls → ∃ l, getDeps x = Except.ok l

/-- The state after the pending calls chosen by `choices` have run, one
after the other. -/
def runTasks (getDeps : String → Except Error (List String)) (choices : List Nat)
    (s : BuildState) : BuildState :=
  choices.foldl (runTask getDeps) s

/-- The `add` calls that the packages of `U` not yet looked up will start. -/
def toSpawn (getDeps : String → Except Error (List String)) (added : String → Bool)
    (U : List String) : Nat :=
  (U.map (fun x => if added x then 0 else (depsOf getDeps x).length)).sum

/-- The number of `add` calls still to run: the pending ones and the ones
they will start. -/
def workLeft (getDeps : String → Except Error (List String)) (U : List String)
    (s : BuildState) : Nat :=
  s.pending.length + toSpawn getDeps s.g.added U

/-- The number of `add` calls of a build whose reachable packages lie in `U`:
one per target and one per dependency reported for a package of `U`. -/
def buildBound (getDeps : String → Except Error (List String)) (targets U : List String) :
    Nat :=
  targets.length + (U.dedup.map (fun x => (depsOf getDeps x).length)).sum

/-- A vertex table as the build phase leaves it: edges recorded in both
directions between keys of `pkgs`, and no key or reverse dependency stored
twice (they are keys of Go maps). -/
structure WellFormed (g : Graph) : Prop where
  sym : ∀ a b, b ∈ g.deps a ↔ a ∈ g.revdeps b
  closed : ∀ a b, b ∈ g.deps a → a ∈ g.pkgs ∧ b ∈ g.pkgs
  nodupPkgs : g.pkgs.Nodup
  nodupRev : ∀ b, (g.revdeps b).Nodup

/-- A dependency cycle: a package that reaches itself through one or more
edges. -/
def HasCycle (g : Graph) : Prop :=
  ∃ p, Relation.TransGen (fun a b => b ∈ g.deps a) p p

/-- The names that `release pkg R g next` appends to `next`. -/
def freed (g : Graph) (pkg : String) (R : List String) : List String :=
  R.filter (fun d => ((g.deps d).filter (fun x => x != pkg)).isEmpty)

/-- What holds between two iterations of the loop over `ready`: `g0` is the
table at the start of the sort phase, `queue` the rest of `ready` followed by
`next`. -/
structure SortInv (g0 g : Graph) (sorted queue : List String) : Prop where
  rev_eq : g.revdeps = g0.revdeps
  sorted_nodup : sorted.Nodup
  pkgs_nodup : g.pkgs.Nodup
  pkgs_iff : ∀ x, x ∈ g0.pkgs ↔ x ∈ sorted ∨ x ∈ g.pkgs
  disjoint : ∀ x, x ∈ sorted → x ∉ g.pkgs
  deps_iff : ∀ a b, b ∈ g.deps a ↔ b ∈ g0.deps a ∧ b ∉ sorted
  queue_nodup : queue.Nodup
  queue_iff : ∀ x, x ∈ queue ↔ x ∈ g.pkgs ∧ g.deps x = []
  order : ∀ a, a ∈ sorted → ∀ b, b ∈ g0.deps a →
    b ∈ sorted ∧ sorted.indexOf b < sorted.indexOf a

/-- The state after the `add` calls `regs` (package, dependent) have run,
one after the other. -/
def addAll (getDeps : String → Except Error (List String)) (regs : List (String × String))
    (s : BuildState) : BuildState :=
  regs.foldl (fun st c => add getDeps st c.1 c.2) s

/-! ## The section under the mutex -/

@[simp] theorem upd_apply {β : Type} (f : String → β) (k : String) (v : β) (x : String) :
    upd f k v x = if x = k then v else f x := rfl

theorem mem_pkgs_getOrCreate (g : Graph) (p x : String) :
    x ∈ (getOrCreate g p).pkgs ↔ x ∈ g.pkgs ∨ x = p := by
  unfold getOrCreate
  by_cases h : p ∈ g.pkgs
  · simp only [h, if_true]
    constructor
    · exact Or.inl
    · rintro (h1 | h1)
      · exact h1
      · exact h1 ▸ h
  · simp [h]

theorem mem_pkgs_lockSection (g : Graph) (p r x : String) :
    x ∈ (lockSection g p r).pkgs ↔ x ∈ g.pkgs ∨ x = p := by
  unfold lockSection recordEdge
  split <;> exact mem_pkgs_getOrCreate g p x

theorem nodup_pkgs_lockSection (g : Graph) (p r : String) (h : g.pkgs.Nodup) :
    (lockSection g p r).pkgs.Nodup := by
  have h1 : (getOrCreate g p).pkgs.Nodup := by
    unfold getOrCreate
    by_cases hp : p ∈ g.pkgs
    · simpa [hp] using h
    · simp only [hp, if_false]
      exact List.nodup_append.2 ⟨h, List.nodup_singleton p, by simpa using hp⟩
  unfold lockSection recordEdge
  split <;> exact h1

theorem mem_deps_getOrCreate (g : Graph) (p a b : String)
    (hc : ∀ a b, b ∈ g.deps a → a ∈ g.pkgs) :
    b ∈ (getOrCreate g p).deps a ↔ b ∈ g.deps a := by
  unfold getOrCreate
  by_cases hp : p ∈ g.pkgs
  · simp [hp]
  · simp only [hp, if_false, upd_apply]
    by_cases ha : a = p
    · subst ha
      simp only [if_true, List.not_mem_nil, false_iff]
      exact fun hb => hp (hc _ _ hb)
    · simp [ha]

theorem mem_revdeps_getOrCreate (g : Graph) (p a b : String)
    (hr : ∀ a b, a ∈ g.revdeps b → b ∈ g.pkgs) :
    a ∈ (getOrCreate g p).revdeps b ↔ a ∈ g.revdeps b := by
  unfold getOrCreate
  by_cases hp : p ∈ g.pkgs
  · simp [hp]
  · simp only [hp, if_false, upd_apply]
    by_cases hb : b = p
    · subst hb
      simp only [if_true, List.not_mem_nil, false_iff]
      exact fun h => hp (hr _ _ h)
    · simp [hb]

theorem added_getOrCreate (g : Graph) (p x : String)
    (ha : ∀ x, g.added x = true → x ∈ g.pkgs) :
    (getOrCreate g p).added x = g.added x := by
  unfold getOrCreate
  by_cases hp : p ∈ g.pkgs
  · simp [hp]
  · simp only [hp, if_false, upd_apply]
    by_cases hx : x = p
    · subst hx
      simp only [if_true]
      cases h : g.added x
      · rfl
      · exact absurd (ha _ h) hp
    · simp [hx]

theorem nodup_revdeps_getOrCreate (g : Graph) (p b : String)
    (h : ∀ b, (g.revdeps b).Nodup) : ((getOrCreate g p).revdeps b).Nodup := by
  unfold getOrCreate
  by_cases hp : p ∈ g.pkgs
  · simpa [hp] using h b
  · simp only [hp, if_false, upd_apply]
    split
    · exact List.nodup_nil
    · exact h b

theorem mem_deps_lockSection (g : Graph) (p r a b : String)
    (hc : ∀ a b, b ∈ g.deps a → a ∈ g.pkgs) :
    b ∈ (lockSection g p r).deps a ↔ b ∈ g.deps a ∨ (a = r ∧ b = p ∧ recorded g p r) := by
  unfold lockSection recordEdge recorded
  have h0 := mem_deps_getOrCreate g p
  have hk := mem_pkgs_getOrCreate g p r
  by_cases hr : r ∈ (getOrCreate g p).pkgs
  · simp only [hr, if_true, upd_apply]
    by_cases ha : a = r
    · subst ha
      simp only [if_true, List.mem_insert_iff, h0 _ _ hc]
      have := hk.1 hr
      tauto
    · simp only [ha, if_false, h0 _ _ hc]
      tauto
  · simp only [hr, if_false, h0 _ _ hc]
    have : ¬ (r ∈ g.pkgs ∨ r = p) := fun h => hr (hk.2 h)
    tauto

theorem mem_revdeps_lockSection (g : Graph) (p r a b : String)
    (hr : ∀ a b, a ∈ g.revdeps b → b ∈ g.pkgs) :
    a ∈ (lockSection g p r).revdeps b ↔
      a ∈ g.revdeps b ∨ (a = r ∧ b = p ∧ recorded g p r) := by
  unfold lockSection recordEdge recorded
  have h0 := mem_revdeps_getOrCreate g p
  have hk := mem_pkgs_getOrCreate g p r
  by_cases hr' : r ∈ (getOrCreate g p).pkgs
  · simp only [hr', if_true, upd_apply]
    by_cases hb : b = p
    · subst hb
      simp only [if_true, List.mem_insert_iff, h0 _ _ hr]
      have := hk.1 hr'
      tauto
    · simp only [hb, if_false, h0 _ _ hr]
      tauto
  · simp only [hr', if_false, h0 _ _ hr]
    have : ¬ (r ∈ g.pkgs ∨ r = p) := fun h => hr' (hk.2 h)
    tauto

theorem added_lockSection (g : Graph) (p r x : String)
    (ha : ∀ x, g.added x = true → x ∈ g.pkgs) :
    (lockSection g p r).added x = g.added x := by
  unfold lockSection recordEdge
  split <;> exact added_getOrCreate g p x ha

theorem nodup_revdeps_lockSection (g : Graph) (p r b : String)
    (h : ∀ b, (g.revdeps b).Nodup) : ((lockSection g p r).revdeps b).Nodup := by
  unfold lockSection recordEdge
  have h1 := nodup_revdeps_getOrCreate g p
  split
  · simp only [upd_apply]
    split
    · exact List.Nodup.insert (h1 _ h)
    · exact h1 _ h
  · exact h1 _ h

/-! ## The closure `add` -/

theorem depsOf_ok (fetch : String → List String) (p : String) :
    depsOf (fun x => Except.ok (fetch x)) p = fetch p := rfl

theorem add_pkgs (getDeps : String → Except Error (List String)) (s : BuildState)
    (p r : String) :
    (add getDeps s p r).g.pkgs = (lockSection s.g p r).pkgs := by
  unfold add
  dsimp only
  split
  · rfl
  · split <;> rfl

theorem add_deps (getDeps : String → Except Error (List String)) (s : BuildState)
    (p r : String) :
    (add getDeps s p r).g.deps = (lockSection s.g p r).deps := by
  unfold add
  dsimp only
  split
  · rfl
  · split <;> rfl

theorem add_revdeps (getDeps : String → Except Error (List String)) (s : BuildState)
    (p r : String) :
    (add getDeps s p r).g.revdeps = (lockSection s.g p r).revdeps := by
  unfold add
  dsimp only
  split
  · rfl
  · split <;> rfl

theorem add_added (getDeps : String → Except Error (List String)) (s : BuildState)
    (p r : String)
    (ha : ∀ x, s.g.added x = true → x ∈ s.g.pkgs) (x : String) :
    (add getDeps s p r).g.added x = true ↔ s.g.added x = true ∨ x = p := by
  have hl := added_lockSection s.g p r
  unfold add
  dsimp only
  by_cases h : (lockSection s.g p r).added p = true
  · rw [if_pos h]
    dsimp only
    rw [hl x ha]
    constructor
    · exact Or.inl
    · rintro (h1 | h1)
      · exact h1
      · rw [h1, ← hl p ha]; exact h
  · rw [if_neg h]
    have : ∀ g2 : Graph, g2.added = upd (lockSection s.g p r).added p true →
        (g2.added x = true ↔ s.g.added x = true ∨ x = p) := by
      intro g2 hg2
      rw [hg2, upd_apply]
      by_cases hx : x = p
      · simp [hx]
      · simp [hx, hl x ha]
    split <;> exact this _ rfl

theorem add_pending_of_added (getDeps : String → Except Error (List String)) (s : BuildState)
    (p r : String)
    (h : s.g.added p = true)
    (ha : ∀ x, s.g.added x = true → x ∈ s.g.pkgs) :
    (add getDeps s p r).pending = s.pending ∧ (add getDeps s p r).calls = s.calls ∧
      (add getDeps s p r).err = s.err := by
  have hl := added_lockSection s.g p r p ha
  unfold add
  dsimp only
  rw [if_pos (by rw [hl]; exact h)]
  exact ⟨rfl, rfl, rfl⟩

theorem add_pending_of_not_added (getDeps : String → Except Error (List String)) (s : BuildState)
    (p r : String)
    (h : s.g.added p = false)
    (ha : ∀ x, s.g.added x = true → x ∈ s.g.pkgs) :
    (add getDeps s p r).pending = s.pending ++ (depsOf getDeps p).map (fun d => (d, p)) ∧
      (add getDeps s p r).calls = s.calls ++ [p] := by
  have hl := added_lockSection s.g p r p ha
  unfold add depsOf
  dsimp only
  rw [if_neg (by rw [hl, h]; simp)]
  cases hg : getDeps p <;> simp

theorem add_err_of_not_added (getDeps : String → Except Error (List String)) (s : BuildState)
    (p r : String)
    (h : s.g.added p = false)
    (ha : ∀ x, s.g.added x = true → x ∈ s.g.pkgs) :
    (add getDeps s p r).err =
      match getDeps p with
      | .ok _ => s.err
      | .error e => if s.err.isSome then s.err else some e := by
  have hl := added_lockSection s.g p r p ha
  unfold add
  dsimp only
  rw [if_neg (by rw [hl, h]; simp)]
  cases hg : getDeps p <;> rfl

/-! ## Invariant of the build phase -/

theorem buildInv_init (getDeps : String → Except Error (List String)) (targets : List String) :
    BuildInv getDeps targets (initState targets) where
  sym := by intro a b; simp [initState, Graph.empty]
  closed := by intro a b; simp [initState, Graph.empty]
  nodupPkgs := by simp [initState, Graph.empty]
  nodupRev := by intro b; simp [initState, Graph.empty]
  added_iff := by intro x; simp [initState, Graph.empty]
  calls_nodup := by simp [initState]
  calls_iff := by intro x; simp [initState, Graph.empty]
  pend_ok := by
    intro q d h
    simp only [initState, List.mem_map, Prod.mk.injEq] at h
    obtain ⟨t, ht, rfl, rfl⟩ := h
    exact ⟨Reach.target ht, Or.inl rfl⟩
  pkgs_reach := by intro x; simp [initState, Graph.empty]
  targets_in := by
    intro t ht
    right
    exact List.mem_map.2 ⟨t, ht, rfl⟩
  succ_in := by intro x; simp [initState, Graph.empty]
  edge_sound := by intro a b; simp [initState, Graph.empty]
  err_sound := by intro e; simp [initState]
  err_complete := by intro _ x; simp [initState]

/-- One `add` call, taken from the pending ones, keeps the invariant. -/
theorem buildInv_add (getDeps : String → Except Error (List String)) (targets : List String)
    (s : BuildState) (p r : String)
    (H : BuildInv getDeps targets { s with pending := (p, r) :: s.pending }) :
    BuildInv getDeps targets (add getDeps s p r) := by
  have ha : ∀ x, s.g.added x = true → x ∈ s.g.pkgs := fun x hx => (H.added_iff x).1 hx
  have hc : ∀ a b, b ∈ s.g.deps a → a ∈ s.g.pkgs := fun a b h => (H.closed a b h).1
  have hrc : ∀ a b, a ∈ s.g.revdeps b → b ∈ s.g.pkgs :=
    fun a b h => (H.closed a b ((H.sym a b).2 h)).2
  have hk : ∀ x, x ∈ (add getDeps s p r).g.pkgs ↔ x ∈ s.g.pkgs ∨ x = p := by
    intro x; rw [add_pkgs]; exact mem_pkgs_lockSection s.g p r x
  have hd : ∀ a b, b ∈ (add getDeps s p r).g.deps a ↔
      b ∈ s.g.deps a ∨ (a = r ∧ b = p ∧ recorded s.g p r) := by
    intro a b; rw [add_deps]; exact mem_deps_lockSection s.g p r a b hc
  have hrv : ∀ a b, a ∈ (add getDeps s p r).g.revdeps b ↔
      a ∈ s.g.revdeps b ∨ (a = r ∧ b = p ∧ recorded s.g p r) := by
    intro a b; rw [add_revdeps]; exact mem_revdeps_lockSection s.g p r a b hrc
  have hadd := add_added getDeps s p r ha
  have hhead := H.pend_ok p r (List.mem_cons_self _ _)
  have hpend : ∀ x, x ∈ s.pending → x ∈ (add getDeps s p r).pending := by
    intro x hx
    cases h : s.g.added p
    · rw [(add_pending_of_not_added getDeps s p r h ha).1]
      exact List.mem_append_left _ hx
    · rw [(add_pending_of_added getDeps s p r h ha).1]
      exact hx
  have hpend' : ∀ x, x ∈ (add getDeps s p r).pending →
      x ∈ s.pending ∨ ∃ q, q ∈ depsOf getDeps p ∧ x = (q, p) := by
    intro x hx
    cases h : s.g.added p
    · rw [(add_pending_of_not_added getDeps s p r h ha).1, List.mem_append] at hx
      rcases hx with hx | hx
      · exact Or.inl hx
      · right
        simp only [List.mem_map] at hx
        obtain ⟨q, hq, rfl⟩ := hx
        exact ⟨q, hq, rfl⟩
    · rw [(add_pending_of_added getDeps s p r h ha).1] at hx
      exact Or.inl hx
  have hcalls : ∀ x, x ∈ (add getDeps s p r).calls ↔ x ∈ s.calls ∨ x = p := by
    intro x
    cases h : s.g.added p
    · rw [(add_pending_of_not_added getDeps s p r h ha).2]
      simp
    · rw [(add_pending_of_added getDeps s p r h ha).2.1]
      constructor
      · exact Or.inl
      · rintro (h1 | h1)
        · exact h1
        · rw [h1]; exact (H.calls_iff p).2 ((H.added_iff p).1 h)
  refine
    { sym := ?_, closed := ?_, nodupPkgs := ?_, nodupRev := ?_, added_iff := ?_,
      calls_nodup := ?_, calls_iff := ?_, pend_ok := ?_, pkgs_reach := ?_, targets_in := ?_,
      succ_in := ?_, edge_sound := ?_, err_sound := ?_, err_complete := ?_ }
  · intro a b
    rw [hd, hrv, H.sym]
  · intro a b h
    rw [hk, hk]
    rcases (hd a b).1 h with h | ⟨rfl, rfl, h⟩
    · exact ⟨Or.inl (H.closed a b h).1, Or.inl (H.closed a b h).2⟩
    · exact ⟨h, Or.inr rfl⟩
  · rw [add_pkgs]
    exact nodup_pkgs_lockSection s.g p r H.nodupPkgs
  · intro b
    rw [add_revdeps]
    exact nodup_revdeps_lockSection s.g p r b H.nodupRev
  · intro x
    rw [hadd, hk, H.added_iff]
  · cases h : s.g.added p
    · rw [(add_pending_of_not_added getDeps s p r h ha).2]
      refine List.nodup_append.2 ⟨H.calls_nodup, List.nodup_singleton p, ?_⟩
      have hp : p ∉ s.calls := by
        intro hp
        have := (H.added_iff p).2 ((H.calls_iff p).1 hp)
        rw [h] at this
        exact Bool.noConfusion this
      simpa using hp
    · rw [(add_pending_of_added getDeps s p r h ha).2.1]
      exact H.calls_nodup
  · intro x
    rw [hcalls, hk, H.calls_iff]
  · intro q d h
    rcases hpend' _ h with h | ⟨q', hq', h⟩
    · obtain ⟨h1, h2⟩ := H.pend_ok q d (List.mem_cons_of_mem _ h)
      refine ⟨h1, ?_⟩
      rcases h2 with h2 | ⟨h2, h3⟩
      · exact Or.inl h2
      · exact Or.inr ⟨(hk d).2 (Or.inl h2), h3⟩
    · obtain ⟨rfl, rfl⟩ := Prod.mk.inj h
      exact ⟨Reach.dep hhead.1 hq', Or.inr ⟨(hk _).2 (Or.inr rfl), hq'⟩⟩
  · intro x hx
    rcases (hk x).1 hx with h | rfl
    · exact H.pkgs_reach x h
    · exact hhead.1
  · intro t ht
    rcases H.targets_in t ht with h | h
    · exact Or.inl ((hk t).2 (Or.inl h))
    · rcases List.mem_cons.1 h with h | h
      · obtain ⟨rfl, _⟩ := Prod.mk.inj h
        exact Or.inl ((hk _).2 (Or.inr rfl))
      · exact Or.inr (hpend _ h)
  · intro x hx q hq
    by_cases hxs : x ∈ s.g.pkgs
    · rcases H.succ_in x hxs q hq with h | ⟨h1, h2⟩
      · rcases List.mem_cons.1 h with h | h
        · obtain ⟨rfl, rfl⟩ := Prod.mk.inj h
          exact Or.inr ⟨(hk _).2 (Or.inr rfl), (hd _ _).2 (Or.inr ⟨rfl, rfl, Or.inl hxs⟩)⟩
        · exact Or.inl (hpend _ h)
      · exact Or.inr ⟨(hk q).2 (Or.inl h1), (hd x q).2 (Or.inl h2)⟩
    · have hxp : x = p := by
        rcases (hk x).1 hx with h | h
        · exact absurd h hxs
        · exact h
      subst hxp
      have h : s.g.added x = false := by
        cases h : s.g.added x
        · rfl
        · exact absurd (ha x h) hxs
      left
      rw [(add_pending_of_not_added getDeps s x r h ha).1]
      exact List.mem_append_right _ (List.mem_map.2 ⟨q, hq, rfl⟩)
  · intro a b h
    rcases (hd a b).1 h with h | ⟨rfl, rfl, _⟩
    · exact H.edge_sound a b h
    · rcases hhead.2 with h | ⟨_, h⟩
      · exact Or.inl h
      · exact Or.inr h
  · intro e he
    cases h : s.g.added p
    · rw [add_err_of_not_added getDeps s p r h ha] at he
      cases hg : getDeps p with
      | ok l =>
        rw [hg] at he
        obtain ⟨x, hx, hxe⟩ := H.err_sound e he
        exact ⟨x, (hcalls x).2 (Or.inl hx), hxe⟩
      | error e0 =>
        rw [hg] at he
        dsimp only at he
        cases hs : s.err with
        | none =>
          rw [hs] at he
          simp only [Option.isSome_none, Bool.false_eq_true, if_false, Option.some.injEq] at he
          exact ⟨p, (hcalls p).2 (Or.inr rfl), he ▸ hg⟩
        | some e1 =>
          rw [hs] at he
          simp only [Option.isSome_some, if_true, Option.some.injEq] at he
          obtain ⟨x, hx, hxe⟩ := H.err_sound e1 hs
          exact ⟨x, (hcalls x).2 (Or.inl hx), he ▸ hxe⟩
    · rw [(add_pending_of_added getDeps s p r h ha).2.2] at he
      obtain ⟨x, hx, hxe⟩ := H.err_sound e he
      exact ⟨x, (hcalls x).2 (Or.inl hx), hxe⟩
  · intro he x hx
    cases h : s.g.added p
    · rw [add_err_of_not_added getDeps s p r h ha] at he
      cases hg : getDeps p with
      | ok l =>
        rw [hg] at he
        rcases (hcalls x).1 hx with h1 | h1
        · exact H.err_complete he x h1
        · exact ⟨l, h1 ▸ hg⟩
      | error e0 =>
        rw [hg] at he
        dsimp only at he
        cases hs : s.err with
        | none => rw [hs] at he; simp at he
        | some e1 => rw [hs] at he; simp at he
    · rw [(add_pending_of_added getDeps s p r h ha).2.2] at he
      rcases (hcalls x).1 hx with h1 | h1
      · exact H.err_complete he x h1
      · exact H.err_complete he x (h1 ▸ (H.calls_iff p).2 ((H.added_iff p).1 h))

theorem mem_cons_eraseIdx {α : Type} (l : List α) (i : Nat) (x y : α)
    (h : l.get? i = some y) : x ∈ y :: l.eraseIdx i ↔ x ∈ l := by
  induction l generalizing i with
  | nil => simp at h
  | cons a l ih =>
    cases i with
    | zero =>
      simp only [List.get?_cons_zero, Option.some.injEq] at h
      subst h
      simp
    | succ i =>
      simp only [List.get?_cons_succ] at h
      have := ih i h
      simp only [List.eraseIdx_cons_succ, List.mem_cons] at this ⊢
      tauto

theorem buildInv_runTask (getDeps : String → Except Error (List String))
    (targets : List String) (s : BuildState) (i : Nat) (H : BuildInv getDeps targets s) :
    BuildInv getDeps targets (runTask getDeps s i) := by
  unfold runTask
  cases h : s.pending.get? i with
  | none => exact H
  | some t =>
    obtain ⟨p, r⟩ := t
    have hm : ∀ x, x ∈ (p, r) :: s.pending.eraseIdx i ↔ x ∈ s.pending :=
      fun x => mem_cons_eraseIdx s.pending i x (p, r) h
    apply buildInv_add
    exact
      { sym := H.sym, closed := H.closed, nodupPkgs := H.nodupPkgs, nodupRev := H.nodupRev
        added_iff := H.added_iff, calls_nodup := H.calls_nodup, calls_iff := H.calls_iff
        pend_ok := fun q d hq => H.pend_ok q d ((hm _).1 hq)
        pkgs_reach := H.pkgs_reach
        targets_in := fun t ht => (H.targets_in t ht).imp id (fun h1 => (hm _).2 h1)
        succ_in := fun x hx q hq => (H.succ_in x hx q hq).imp (fun h1 => (hm _).2 h1) id
        edge_sound := H.edge_sound, err_sound := H.err_sound, err_complete := H.err_complete }

theorem buildInv_runTasks (getDeps : String → Except Error (List String))
    (targets : List String) (choices : List Nat) (s : BuildState)
    (H : BuildInv getDeps targets s) : BuildInv getDeps targets (runTasks getDeps choices s) := by
  induction choices generalizing s with
  | nil => exact H
  | cons c cs ih => exact ih _ (buildInv_runTask getDeps targets s c H)

theorem buildLoop_inv (getDeps : String → Except Error (List String))
    (targets : List String) (sched : List Nat) (s s' : BuildState)
    (H : BuildInv getDeps targets s) (h : buildLoop getDeps sched s = some s') :
    BuildInv getDeps targets s' ∧ s'.pending = [] := by
  induction sched generalizing s with
  | nil =>
    unfold buildLoop at h
    split at h
    · rename_i he
      cases h
      exact ⟨H, List.isEmpty_iff.1 he⟩
    · cases h
  | cons c cs ih =>
    unfold buildLoop at h
    split at h
    · rename_i he
      cases h
      exact ⟨H, List.isEmpty_iff.1 he⟩
    · exact ih _ (buildInv_runTask getDeps targets s _ H) h

theorem build_inv (getDeps : String → Except Error (List String))
    (targets : List String) (sched : List Nat) (s : BuildState)
    (h : build getDeps sched targets = some s) :
    BuildInv getDeps targets s ∧ s.pending = [] :=
  buildLoop_inv getDeps targets sched _ s (buildInv_init getDeps targets) h

/-! ## Termination of the build phase -/

theorem toSpawn_congr (getDeps : String → Except Error (List String))
    (a a' : String → Bool) (U : List String) (h : ∀ x, x ∈ U → a' x = a x) :
    toSpawn getDeps a' U = toSpawn getDeps a U := by
  unfold toSpawn
  congr 1
  apply List.map_congr_left
  intro x hx
  rw [h x hx]

theorem toSpawn_step (getDeps : String → Except Error (List String))
    (a a' : String → Bool) (U : List String) (p : String) (hU : U.Nodup) (hp : p ∈ U)
    (hap : a p = false) (hap' : a' p = true) (h : ∀ x, x ≠ p → a' x = a x) :
    toSpawn getDeps a' U + (depsOf getDeps p).length = toSpawn getDeps a U := by
  induction U with
  | nil => simp at hp
  | cons x U ih =>
    have hnd := List.nodup_cons.1 hU
    by_cases hx : x = p
    · subst hx
      have : toSpawn getDeps a' U = toSpawn getDeps a U :=
        toSpawn_congr getDeps a a' U (fun y hy => h y (fun hyx => hnd.1 (hyx ▸ hy)))
      unfold toSpawn at this ⊢
      simp only [List.map_cons, List.sum_cons, hap, hap', if_true, Bool.false_eq_true,
        if_false]
      omega
    · have hpU : p ∈ U := by
        rcases List.mem_cons.1 hp with h1 | h1
        · exact absurd h1.symm hx
        · exact h1
      have := ih hnd.2 hpU
      unfold toSpawn at this ⊢
      simp only [List.map_cons, List.sum_cons, h x hx]
      omega

theorem workLeft_runTask (getDeps : String → Except Error (List String))
    (targets U : List String) (s : BuildState) (i : Nat)
    (H : BuildInv getDeps targets s) (hU : U.Nodup)
    (hR : ∀ x, Reach getDeps targets x → x ∈ U) (hi : i < s.pending.length) :
    workLeft getDeps U (runTask getDeps s i) + 1 = workLeft getDeps U s := by
  unfold runTask
  rcases hp : s.pending.get ⟨i, hi⟩ with ⟨p, r⟩
  have hget : s.pending.get? i = some (p, r) := by rw [List.get?_eq_get hi, hp]
  rw [hget]
  dsimp only
  have hmem : (p, r) ∈ s.pending := hp ▸ List.get_mem _ _ _
  have hlen : (s.pending.eraseIdx i).length + 1 = s.pending.length := by
    rw [List.length_eraseIdx, if_pos hi]
    omega
  have ha : ∀ x, s.g.added x = true → x ∈ s.g.pkgs := fun x hx => (H.added_iff x).1 hx
  set s0 : BuildState := { s with pending := s.pending.eraseIdx i } with hs0
  have hadd := add_added getDeps s0 p r ha
  unfold workLeft
  cases h : s.g.added p
  · rw [(add_pending_of_not_added getDeps s0 p r h ha).1, List.length_append, List.length_map]
    have hstep := toSpawn_step getDeps s.g.added (add getDeps s0 p r).g.added U p hU
      (hR p (H.pend_ok p r hmem).1) h ((hadd p).2 (Or.inr rfl)) (by
        intro x hx
        have := hadd x
        cases h1 : (add getDeps s0 p r).g.added x
        · cases h2 : s0.g.added x
          · rfl
          · rw [h1] at this
            exact absurd (this.2 (Or.inl h2)) (by simp)
        · rcases this.1 h1 with h2 | h2
          · exact h2.symm
          · exact absurd h2 hx)
    show (s.pending.eraseIdx i).length + (depsOf getDeps p).length + _ + 1 = _
    omega
  · rw [(add_pending_of_added getDeps s0 p r h ha).1]
    have hc := toSpawn_congr getDeps s.g.added (add getDeps s0 p r).g.added U (by
      intro x _
      have := hadd x
      cases h1 : (add getDeps s0 p r).g.added x
      · cases h2 : s0.g.added x
        · rfl
        · rw [h1] at this
          exact absurd (this.2 (Or.inl h2)) (by simp)
      · rcases this.1 h1 with h2 | h2
        · exact h2.symm
        · rw [h2]; exact h.symm)
    show (s.pending.eraseIdx i).length + _ + 1 = _
    omega

/-- A schedule at least as long as the work left ends the build loop. -/
theorem buildLoop_terminates (getDeps : String → Except Error (List String))
    (targets U : List String) (hU : U.Nodup) (hR : ∀ x, Reach getDeps targets x → x ∈ U)
    (sched : List Nat) (s : BuildState) (H : BuildInv getDeps targets s)
    (hlen : workLeft getDeps U s ≤ sched.length) :
    ∃ s', buildLoop getDeps sched s = some s' := by
  induction sched generalizing s with
  | nil =>
    have h0 : s.pending.length = 0 := by
      unfold workLeft at hlen
      simp only [List.length_nil] at hlen
      omega
    have : s.pending = [] := List.length_eq_zero.1 h0
    exact ⟨s, by simp [buildLoop, this]⟩
  | cons c cs ih =>
    unfold buildLoop
    by_cases he : s.pending.isEmpty = true
    · exact ⟨s, by rw [if_pos he]⟩
    · rw [if_neg he]
      have hpos : 0 < s.pending.length := by
        rcases Nat.eq_zero_or_pos s.pending.length with h0 | h0
        · exact absurd (List.isEmpty_iff.2 (List.length_eq_zero.1 h0)) he
        · exact h0
      have hi : c % s.pending.length < s.pending.length := Nat.mod_lt _ hpos
      have hw := workLeft_runTask getDeps targets U s _ H hU hR hi
      apply ih _ (buildInv_runTask getDeps targets s _ H)
      simp only [List.length_cons] at hlen
      omega

theorem build_terminates (getDeps : String → Except Error (List String))
    (targets U : List String) (hR : ∀ x, Reach getDeps targets x → x ∈ U)
    (sched : List Nat) (hlen : buildBound getDeps targets U ≤ sched.length) :
    ∃ s, build getDeps sched targets = some s := by
  apply buildLoop_terminates getDeps targets U.dedup (List.nodup_dedup U)
    (fun x hx => List.mem_dedup.2 (hR x hx)) sched _ (buildInv_init getDeps targets)
  have : workLeft getDeps U.dedup (initState targets) = buildBound getDeps targets U := by
    simp [workLeft, buildBound, initState, toSpawn, Graph.empty]
  omega

/-! ## The sort phase -/

theorem BuildInv.wellFormed {getDeps : String → Except Error (List String)}
    {targets : List String} {s : BuildState} (H : BuildInv getDeps targets s) :
    WellFormed s.g :=
  { sym := H.sym, closed := H.closed, nodupPkgs := H.nodupPkgs, nodupRev := H.nodupRev }

theorem release_spec (pkg : String) (R : List String) (g : Graph) (next : List String)
    (hR : R.Nodup) :
    (release pkg R g next).1.pkgs = g.pkgs ∧
    (release pkg R g next).1.revdeps = g.revdeps ∧
    (∀ a, (release pkg R g next).1.deps a =
      if a ∈ R then (g.deps a).filter (fun x => x != pkg) else g.deps a) ∧
    (release pkg R g next).2 = next ++ freed g pkg R := by
  induction R generalizing g next with
  | nil => simp [release, freed]
  | cons d R ih =>
    have hnd := List.nodup_cons.1 hR
    unfold release
    dsimp only
    obtain ⟨h1, h2, h3, h4⟩ := ih
      { g with deps := upd g.deps d ((g.deps d).filter (fun x => x != pkg)) }
      (if (upd g.deps d ((g.deps d).filter (fun x => x != pkg)) d).isEmpty then next ++ [d]
        else next) hnd.2
    refine ⟨h1, h2, ?_, ?_⟩
    · intro a
      rw [h3 a]
      dsimp only [upd_apply]
      by_cases ha : a ∈ R
      · have had : a ≠ d := fun h => hnd.1 (h ▸ ha)
        simp [ha, had]
      · by_cases had : a = d
        · simp [had]
        · simp [ha, had]
    · rw [h4]
      have hf : freed { g with deps := upd g.deps d ((g.deps d).filter (fun x => x != pkg)) }
          pkg R = freed g pkg R := by
        unfold freed
        apply List.filter_congr
        intro x hx
        have hxd : x ≠ d := fun h => hnd.1 (h ▸ hx)
        simp [hxd]
      rw [hf]
      unfold freed
      simp only [upd_apply, if_true, List.filter_cons]
      split <;> simp

theorem length_filter_ne (l : List String) (x : String) (hl : l.Nodup) (hx : x ∈ l) :
    (l.filter (fun y => y != x)).length + 1 = l.length := by
  rw [← List.Nodup.erase_eq_filter hl x, List.length_erase_of_mem hx]
  have : 0 < l.length := List.length_pos_of_mem hx
  omega

theorem sortInv_init (ord : MapOrder) (g : Graph) (hwf : WellFormed g) :
    SortInv g g [] (initReady ord g) where
  rev_eq := rfl
  sorted_nodup := List.nodup_nil
  pkgs_nodup := hwf.nodupPkgs
  pkgs_iff := by intro x; simp
  disjoint := by intro x hx; simp at hx
  deps_iff := by intro a b; simp
  queue_nodup := by
    unfold initReady
    exact List.Nodup.filter _ ((ord.perm 0 g.pkgs).nodup_iff.2 hwf.nodupPkgs)
  queue_iff := by
    intro x
    unfold initReady
    rw [List.mem_filter, (ord.perm 0 g.pkgs).mem_iff, List.isEmpty_iff]
  order := by intro a ha; simp at ha

/-- One iteration of the loop over `ready` (lines 240-249) keeps the
invariant and removes one key from `pkgs`. -/
theorem sortInv_step (ord : MapOrder) (g0 g : Graph) (sorted Q next : List String)
    (pkg : String) (t : Nat) (hwf : WellFormed g0) (H : SortInv g0 g sorted (pkg :: Q)) :
    SortInv g0
      { (release pkg (ord.range t (g.revdeps pkg)) g next).1 with
        pkgs := (release pkg (ord.range t (g.revdeps pkg)) g next).1.pkgs.filter
          (fun x => x != pkg) }
      (sorted ++ [pkg]) (Q ++ freed g pkg (ord.range t (g.revdeps pkg))) ∧
    (release pkg (ord.range t (g.revdeps pkg)) g next).2 =
      next ++ freed g pkg (ord.range t (g.revdeps pkg)) ∧
    ((release pkg (ord.range t (g.revdeps pkg)) g next).1.pkgs.filter
      (fun x => x != pkg)).length + 1 = g.pkgs.length := by
  have hpq : pkg ∈ g.pkgs ∧ g.deps pkg = [] := (H.queue_iff pkg).1 (List.mem_cons_self _ _)
  have hps : pkg ∉ sorted := fun h => H.disjoint pkg h hpq.1
  have hnq := List.nodup_cons.1 H.queue_nodup
  have hRnd : (ord.range t (g.revdeps pkg)).Nodup :=
    (ord.perm t _).nodup_iff.2 (H.rev_eq ▸ hwf.nodupRev pkg)
  have hRmem : ∀ x, x ∈ ord.range t (g.revdeps pkg) ↔ pkg ∈ g0.deps x := by
    intro x
    rw [(ord.perm t _).mem_iff, H.rev_eq, hwf.sym]
  obtain ⟨r1, r2, r3, r4⟩ := release_spec pkg (ord.range t (g.revdeps pkg)) g next hRnd
  generalize release pkg (ord.range t (g.revdeps pkg)) g next = r at r1 r2 r3 r4 ⊢
  generalize hRdef : ord.range t (g.revdeps pkg) = R at hRnd hRmem r3 r4 ⊢
  have hdeps : ∀ a b, b ∈ r.1.deps a ↔ b ∈ g.deps a ∧ b ≠ pkg := by
    intro a b
    rw [r3 a]
    by_cases ha : a ∈ R
    · simp [ha, List.mem_filter]
    · simp only [ha, if_false]
      constructor
      · intro hb
        refine ⟨hb, ?_⟩
        rintro rfl
        exact ha ((hRmem a).2 ((H.deps_iff a _).1 hb).1)
      · exact fun h => h.1
  have hfreed : ∀ x, x ∈ freed g pkg R ↔ x ∈ R ∧ r.1.deps x = [] := by
    intro x
    unfold freed
    rw [List.mem_filter]
    constructor
    · rintro ⟨h1, h2⟩
      refine ⟨h1, ?_⟩
      rw [r3 x, if_pos h1]
      exact List.isEmpty_iff.1 h2
    · rintro ⟨h1, h2⟩
      refine ⟨h1, ?_⟩
      rw [r3 x, if_pos h1] at h2
      exact List.isEmpty_iff.2 h2
  have hRpk : ∀ x, x ∈ R → x ∈ g.pkgs ∧ x ≠ pkg ∧ pkg ∈ g.deps x := by
    intro x hx
    have h0 : pkg ∈ g0.deps x := (hRmem x).1 hx
    have h1 : pkg ∈ g.deps x := (H.deps_iff x pkg).2 ⟨h0, hps⟩
    refine ⟨?_, ?_, h1⟩
    · rcases (H.pkgs_iff x).1 (hwf.closed x pkg h0).1 with h | h
      · exact absurd (H.order x h pkg h0).1 hps
      · exact h
    · rintro rfl
      rw [hpq.2] at h1
      simp at h1
  refine ⟨?_, r4, ?_⟩
  · refine
      { rev_eq := ?_, sorted_nodup := ?_, pkgs_nodup := ?_, pkgs_iff := ?_, disjoint := ?_,
        deps_iff := ?_, queue_nodup := ?_, queue_iff := ?_, order := ?_ }
    · show r.1.revdeps = g0.revdeps
      rw [r2, H.rev_eq]
    · exact List.nodup_append.2 ⟨H.sorted_nodup, List.nodup_singleton pkg, by simpa using hps⟩
    · show (r.1.pkgs.filter _).Nodup
      rw [r1]
      exact List.Nodup.filter _ H.pkgs_nodup
    · intro x
      show x ∈ g0.pkgs ↔ x ∈ sorted ++ [pkg] ∨ x ∈ r.1.pkgs.filter _
      rw [r1, H.pkgs_iff x]
      simp only [List.mem_append, List.mem_singleton, List.mem_filter, bne_iff_ne, ne_eq]
      by_cases hx : x = pkg
      · subst hx; tauto
      · tauto
    · intro x hx
      show x ∉ r.1.pkgs.filter _
      rw [r1]
      simp only [List.mem_append, List.mem_singleton] at hx
      simp only [List.mem_filter, bne_iff_ne, ne_eq, not_and, not_not]
      rcases hx with hx | hx
      · exact fun h => absurd h (H.disjoint x hx)
      · exact fun _ => hx
    · intro a b
      show b ∈ r.1.deps a ↔ _
      rw [hdeps, H.deps_iff]
      simp only [List.mem_append, List.mem_singleton]
      tauto
    · refine List.nodup_append.2 ⟨hnq.2, List.Nodup.filter _ hRnd, ?_⟩
      intro x hx1 hx2
      have h1 := ((H.queue_iff x).1 (List.mem_cons_of_mem _ hx1)).2
      have h2 := (hRpk x ((hfreed x).1 hx2).1).2.2
      rw [h1] at h2
      simp at h2
    · intro x
      show x ∈ Q ++ freed g pkg R ↔ x ∈ r.1.pkgs.filter _ ∧ r.1.deps x = []
      rw [r1, List.mem_append, List.mem_filter, hfreed]
      simp only [bne_iff_ne, ne_eq]
      constructor
      · rintro (hx | ⟨hx1, hx2⟩)
        · have h1 := (H.queue_iff x).1 (List.mem_cons_of_mem _ hx)
          refine ⟨⟨h1.1, ?_⟩, ?_⟩
          · rintro rfl
            exact hnq.1 hx
          · rw [r3 x, h1.2]
            simp
        · exact ⟨⟨(hRpk x hx1).1, (hRpk x hx1).2.1⟩, hx2⟩
      · rintro ⟨⟨hx1, hx2⟩, hx3⟩
        by_cases hxR : x ∈ R
        · exact Or.inr ⟨hxR, hx3⟩
        · left
          rw [r3 x, if_neg hxR] at hx3
          rcases List.mem_cons.1 ((H.queue_iff x).2 ⟨hx1, hx3⟩) with h | h
          · exact absurd h hx2
          · exact h
    · intro a ha b hb
      rcases List.mem_append.1 ha with ha | ha
      · obtain ⟨h1, h2⟩ := H.order a ha b hb
        refine ⟨List.mem_append_left _ h1, ?_⟩
        rw [List.indexOf_append_of_mem h1, List.indexOf_append_of_mem ha]
        exact h2
      · have hap : a = pkg := List.mem_singleton.1 ha
        subst hap
        have hbs : b ∈ sorted := by
          by_contra hbs
          have := (H.deps_iff a b).2 ⟨hb, hbs⟩
          rw [hpq.2] at this
          simp at this
        refine ⟨List.mem_append_left _ hbs, ?_⟩
        rw [List.indexOf_append_of_mem hbs, List.indexOf_append_of_not_mem hps]
        have := List.indexOf_lt_length.2 hbs
        omega
  · rw [r1]
    exact length_filter_ne g.pkgs pkg H.pkgs_nodup hpq.1

theorem drain_spec (ord : MapOrder) (g0 : Graph) (hwf : WellFormed g0) (ready : List String) :
    ∀ (g : Graph) (sorted next : List String), SortInv g0 g sorted (ready ++ next) →
      SortInv g0 (drain ord ready g sorted next).1 (drain ord ready g sorted next).2.1
        (drain ord ready g sorted next).2.2 ∧
      (drain ord ready g sorted next).1.pkgs.length + ready.length = g.pkgs.length := by
  induction ready with
  | nil =>
    intro g sorted next H
    exact ⟨by simpa [drain] using H, by simp [drain]⟩
  | cons pkg ready ih =>
    intro g sorted next H
    unfold drain
    dsimp only
    obtain ⟨h1, h2, h3⟩ :=
      sortInv_step ord g0 g sorted (ready ++ next) next pkg (sorted ++ [pkg]).length hwf H
    rw [List.append_assoc, ← h2] at h1
    obtain ⟨i1, i2⟩ := ih _ _ _ h1
    refine ⟨i1, ?_⟩
    rw [List.length_cons]
    have key : ∀ D F : Nat, D + ready.length = F → F + 1 = g.pkgs.length →
        D + (ready.length + 1) = g.pkgs.length := by
      intro D F e1 e2
      omega
    exact key _ _ i2 h3

theorem sortLoop_inv (ord : MapOrder) (g0 : Graph) (hwf : WellFormed g0) (fuel : Nat) :
    ∀ (g : Graph) (sorted ready : List String) (res : Graph × List String),
      SortInv g0 g sorted ready → sortLoop ord fuel g sorted ready = some res →
      SortInv g0 res.1 res.2 [] := by
  induction fuel with
  | zero =>
    intro g sorted ready res _ h
    simp [sortLoop] at h
  | succ fuel ih =>
    intro g sorted ready res H h
    unfold sortLoop at h
    split at h
    · rename_i he
      cases h
      rw [List.isEmpty_iff] at he
      exact he ▸ H
    · have hd := drain_spec ord g0 hwf ready g sorted [] (by simpa using H)
      exact ih _ _ _ res hd.1 h

theorem sortLoop_terminates (ord : MapOrder) (g0 : Graph) (hwf : WellFormed g0) (fuel : Nat) :
    ∀ (g : Graph) (sorted ready : List String),
      SortInv g0 g sorted ready → g.pkgs.length < fuel →
      ∃ res, sortLoop ord fuel g sorted ready = some res := by
  induction fuel with
  | zero =>
    intro g sorted ready _ h
    omega
  | succ fuel ih =>
    intro g sorted ready H h
    unfold sortLoop
    by_cases he : ready.isEmpty = true
    · exact ⟨_, by rw [if_pos he]⟩
    · rw [if_neg he]
      have hd := drain_spec ord g0 hwf ready g sorted [] (by simpa using H)
      apply ih _ _ _ hd.1
      have hpos : 0 < ready.length := by
        rcases Nat.eq_zero_or_pos ready.length with h0 | h0
        · exact absurd (List.isEmpty_iff.2 (List.length_eq_zero.1 h0)) he
        · exact h0
      have := hd.2
      omega

/-- In a finite non-empty set of packages that each depend on a package of
the set, some package reaches itself. -/
theorem exists_cycle_of_succ (E : String → String → Prop) (S : List String) (hne : S ≠ [])
    (h : ∀ x, x ∈ S → ∃ y, y ∈ S ∧ E x y) : ∃ p, Relation.TransGen E p p := by
  by_contra hno
  have hirr : ∀ p, ¬ Relation.TransGen E p p := fun p hp => hno ⟨p, hp⟩
  let r : {x // x ∈ S} → {x // x ∈ S} → Prop := fun a b => Relation.TransGen E b.1 a.1
  haveI : IsTrans {x // x ∈ S} r := ⟨fun _ _ _ hab hbc => Relation.TransGen.trans hbc hab⟩
  haveI : IsIrrefl {x // x ∈ S} r := ⟨fun a => hirr a.1⟩
  have hwf : WellFounded r := Finite.wellFounded_of_trans_of_irrefl r
  obtain ⟨x0, hx0⟩ := List.exists_mem_of_ne_nil S hne
  obtain ⟨m, _, hm⟩ := hwf.has_min Set.univ ⟨⟨x0, hx0⟩, Set.mem_univ _⟩
  obtain ⟨y, hy, hmy⟩ := h m.1 m.2
  exact hm ⟨y, hy⟩ (Set.mem_univ _) (Relation.TransGen.single hmy)

/-- The outcome of the sort loop on a well-formed table. -/
theorem sortLoop_final (ord : MapOrder) (fuel : Nat) (g : Graph) (hwf : WellFormed g)
    (res : Graph × List String)
    (h : sortLoop ord fuel g [] (initReady ord g) = some res) :
    res.2.Nodup ∧
    (res.1.pkgs.length > 0 → HasCycle g) ∧
    (¬ res.1.pkgs.length > 0 →
      ¬ HasCycle g ∧ (∀ x, x ∈ res.2 ↔ x ∈ g.pkgs) ∧
      ∀ a b, b ∈ g.deps a → a ∈ res.2 ∧ b ∈ res.2 ∧ res.2.indexOf b < res.2.indexOf a) := by
  have H := sortLoop_inv ord g hwf fuel g [] (initReady ord g) res (sortInv_init ord g hwf) h
  refine ⟨H.sorted_nodup, ?_, ?_⟩
  · intro hpos
    apply exists_cycle_of_succ (fun a b => b ∈ g.deps a) res.1.pkgs
      (List.ne_nil_of_length_pos hpos)
    intro x hx
    have hne : res.1.deps x ≠ [] := by
      intro h0
      have := (H.queue_iff x).2 ⟨hx, h0⟩
      simp at this
    obtain ⟨y, hy⟩ := List.exists_mem_of_ne_nil _ hne
    obtain ⟨hy0, hys⟩ := (H.deps_iff x y).1 hy
    refine ⟨y, ?_, hy0⟩
    rcases (H.pkgs_iff y).1 (hwf.closed x y hy0).2 with h1 | h1
    · exact absurd h1 hys
    · exact h1
  · intro hz
    have hnil : res.1.pkgs = [] := by
      apply List.length_eq_zero.1
      omega
    have hall : ∀ x, x ∈ res.2 ↔ x ∈ g.pkgs := by
      intro x
      rw [H.pkgs_iff x, hnil]
      simp
    have hedge : ∀ a b, b ∈ g.deps a →
        a ∈ res.2 ∧ b ∈ res.2 ∧ res.2.indexOf b < res.2.indexOf a := by
      intro a b hab
      have ha : a ∈ res.2 := (hall a).2 (hwf.closed a b hab).1
      exact ⟨ha, H.order a ha b hab⟩
    refine ⟨?_, hall, hedge⟩
    rintro ⟨p, hp⟩
    have : ∀ a b, Relation.TransGen (fun a b => b ∈ g.deps a) a b →
        res.2.indexOf b < res.2.indexOf a := by
      intro a b hab
      induction hab with
      | single h1 => exact (hedge _ _ h1).2.2
      | tail _ h1 ih => exact lt_trans (hedge _ _ h1).2.2 ih
    exact lt_irrefl _ (this p p hp)

theorem sortPhase_terminates (ord : MapOrder) (fuel : Nat) (g : Graph) (hwf : WellFormed g)
    (hf : g.pkgs.length < fuel) : sortPhase ord fuel g ≠ none := by
  obtain ⟨res, hres⟩ :=
    sortLoop_terminates ord g hwf fuel g [] (initReady ord g) (sortInv_init ord g hwf) hf
  unfold sortPhase
  rw [hres]
  dsimp only
  split <;> simp

/-- The sort phase either runs out of fuel, or reports a cycle that exists,
or returns every key once, dependencies first, from a table without cycle. -/
theorem sortPhase_spec (ord : MapOrder) (fuel : Nat) (g : Graph) (hwf : WellFormed g) :
    sortPhase ord fuel g = none ∨
    (sortPhase ord fuel g = some ([], some cycleError) ∧ HasCycle g) ∨
    ∃ sorted, sortPhase ord fuel g = some (sorted, none) ∧ ¬ HasCycle g ∧ sorted.Nodup ∧
      (∀ x, x ∈ sorted ↔ x ∈ g.pkgs) ∧
      ∀ a b, b ∈ g.deps a → a ∈ sorted ∧ b ∈ sorted ∧ sorted.indexOf b < sorted.indexOf a := by
  unfold sortPhase
  cases h : sortLoop ord fuel g [] (initReady ord g) with
  | none => exact Or.inl rfl
  | some res =>
    right
    obtain ⟨h1, h2, h3⟩ := sortLoop_final ord fuel g hwf res h
    obtain ⟨g1, sorted⟩ := res
    dsimp only at h1 h2 h3 ⊢
    by_cases hpos : g1.pkgs.length > 0
    · rw [if_pos hpos]
      exact Or.inl ⟨rfl, h2 hpos⟩
    · rw [if_neg hpos]
      obtain ⟨h4, h5, h6⟩ := h3 hpos
      exact Or.inr ⟨sorted, rfl, h4, h1, h5, h6⟩

/-! ## The table handed to the sort phase -/

theorem wellFormed_empty : WellFormed Graph.empty where
  sym := by intro a b; simp [Graph.empty]
  closed := by intro a b; simp [Graph.empty]
  nodupPkgs := by simp [Graph.empty]
  nodupRev := by intro b; simp [Graph.empty]

theorem builtGraph_wellFormed (getDeps : String → Except Error (List String))
    (sched : List Nat) (targets : List String) :
    WellFormed (builtGraph getDeps sched targets) := by
  unfold builtGraph
  cases h : build getDeps sched targets with
  | none => exact wellFormed_empty
  | some s => exact (build_inv getDeps targets sched s h).1.wellFormed

theorem not_hasCycle_of_sorted (ord : MapOrder) (fuel : Nat) (g : Graph) (hwf : WellFormed g)
    (sorted : List String) (h : sortPhase ord fuel g = some (sorted, none)) : ¬ HasCycle g := by
  rcases sortPhase_spec ord fuel g hwf with h1 | ⟨h1, _⟩ | ⟨l, _, h2, _⟩
  · rw [h1] at h; cases h
  · rw [h1] at h; cases h
  · exact h2

/-- A list that holds the targets and is closed under `getDeps` holds every
reachable package. -/
theorem reach_subset (getDeps : String → Except Error (List String)) (targets U : List String)
    (ht : ∀ t, t ∈ targets → t ∈ U)
    (hc : ∀ p, p ∈ U → ∀ q, q ∈ depsOf getDeps p → q ∈ U) :
    ∀ x, Reach getDeps targets x → x ∈ U := by
  intro x hx
  induction hx with
  | target h => exact ht _ h
  | dep _ hq ih => exact hc _ ih _ hq

/-- When no call is pending, every reachable package is registered. -/
theorem reach_mem_pkgs (getDeps : String → Except Error (List String)) (targets : List String)
    (s : BuildState) (H : BuildInv getDeps targets s) (hp : s.pending = []) :
    ∀ x, Reach getDeps targets x → x ∈ s.g.pkgs := by
  intro x hx
  induction hx with
  | target h =>
    rcases H.targets_in _ h with h1 | h1
    · exact h1
    · rw [hp] at h1; simp at h1
  | dep _ hq ih =>
    rcases H.succ_in _ ih _ hq with h1 | h1
    · rw [hp] at h1; simp at h1
    · exact h1.1

/-- When no call is pending, the edges out of a package other than the empty
name are the dependencies `getDeps` reported for it. -/
theorem deps_iff_of_done (getDeps : String → Except Error (List String))
    (targets : List String) (s : BuildState) (H : BuildInv getDeps targets s)
    (hp : s.pending = []) (A B : String) (hA : A ∈ s.g.pkgs) (hne : A ≠ "") :
    B ∈ s.g.deps A ↔ B ∈ depsOf getDeps A := by
  constructor
  · intro h
    rcases H.edge_sound A B h with h1 | h1
    · exact absurd h1 hne
    · exact h1
  · intro h
    rcases H.succ_in A hA B h with h1 | h1
    · rw [hp] at h1; simp at h1
    · exact h1.2

/-- Any `add` call keeps the edges symmetric and between registered
packages. -/
theorem symmetric_add (getDeps : String → Except Error (List String)) (s : BuildState)
    (p r : String)
    (H : ∀ a b, (b ∈ s.g.deps a ↔ a ∈ s.g.revdeps b) ∧
      (b ∈ s.g.deps a → a ∈ s.g.pkgs ∧ b ∈ s.g.pkgs)) :
    ∀ a b, (b ∈ (add getDeps s p r).g.deps a ↔ a ∈ (add getDeps s p r).g.revdeps b) ∧
      (b ∈ (add getDeps s p r).g.deps a →
        a ∈ (add getDeps s p r).g.pkgs ∧ b ∈ (add getDeps s p r).g.pkgs) := by
  have hc : ∀ a b, b ∈ s.g.deps a → a ∈ s.g.pkgs := fun a b h => ((H a b).2 h).1
  have hrc : ∀ a b, a ∈ s.g.revdeps b → b ∈ s.g.pkgs :=
    fun a b h => ((H a b).2 ((H a b).1.2 h)).2
  intro a b
  rw [add_deps, add_revdeps, add_pkgs, mem_deps_lockSection s.g p r a b hc,
    mem_revdeps_lockSection s.g p r a b hrc, mem_pkgs_lockSection, mem_pkgs_lockSection]
  refine ⟨by rw [(H a b).1], ?_⟩
  rintro (h | ⟨rfl, rfl, h⟩)
  · exact ⟨Or.inl ((H a b).2 h).1, Or.inl ((H a b).2 h).2⟩
  · exact ⟨h, Or.inr rfl⟩

/-! ## The claims -/

/-- C1: whenever `tsort` returns an ordering and no error, the ordering has no
repetition and, for every edge A→B of the built graph (B is in the `deps` of A
when the sort phase starts), both names occur in it and B occurs at a strictly
smaller index than A. -/
theorem tsort_order_respects_edges (ord : MapOrder) (fuel : Nat) (sched : List Nat)
    (targets : List String) (getDeps : String → Except Error (List String))
    (sorted : List String)
    (h : tsort ord fuel sched targets getDeps = some (sorted, none)) :
    sorted.Nodup ∧
    ∀ A B, B ∈ (builtGraph getDeps sched targets).deps A →
      A ∈ sorted ∧ B ∈ sorted ∧ sorted.indexOf B < sorted.indexOf A := by
  have hwf := builtGraph_wellFormed getDeps sched targets
  unfold tsort at h
  unfold builtGraph at hwf ⊢
  cases hb : build getDeps sched targets with
  | none => rw [hb] at h; cases h
  | some s =>
    rw [hb] at h hwf
    dsimp only at h hwf ⊢
    cases he : s.err with
    | some e => rw [he] at h; cases h
    | none =>
      rw [he] at h
      dsimp only at h
      rcases sortPhase_spec ord fuel s.g hwf with h1 | ⟨h1, _⟩ | ⟨l, h1, _, h3, _, h5⟩
      · rw [h1] at h; cases h
      · rw [h1] at h; cases h
      · rw [h1] at h
        cases h
        exact ⟨h3, h5⟩

/-- The diamond scenario app → lib1, lib2 → libcore: `tsort` returns an
ordering, in which libcore precedes lib1 and lib2 and these precede app. -/
theorem tsort_order_respects_edges_witness :
    tsort MapOrder.stored 5 [0, 0, 0, 0, 0] ["app"] diamondDeps =
      some (["libcore", "lib2", "lib1", "app"], none) ∧
    (["libcore", "lib2", "lib1", "app"].Nodup ∧
      ∀ A B, B ∈ (builtGraph diamondDeps [0, 0, 0, 0, 0] ["app"]).deps A →
        A ∈ ["libcore", "lib2", "lib1", "app"] ∧ B ∈ ["libcore", "lib2", "lib1", "app"] ∧
          ["libcore", "lib2", "lib1", "app"].indexOf B <
            ["libcore", "lib2", "lib1", "app"].indexOf A) :=
  ⟨by decide,
    tsort_order_respects_edges MapOrder.stored 5 [0, 0, 0, 0, 0] ["app"] diamondDeps
      ["libcore", "lib2", "lib1", "app"] (by decide)⟩

/-- C2: for every well-formed table (symmetric edges between keys) without
dependency cycle, the sort phase, given fuel for one round per key and one
more, returns no error and a sequence that holds every key of the table
exactly once and nothing else. -/
theorem sortPhase_returns_every_node_once (ord : MapOrder) (fuel : Nat) (g : Graph)
    (hwf : WellFormed g) (hac : ¬ HasCycle g) (hf : g.pkgs.length < fuel) :
    ∃ sorted, sortPhase ord fuel g = some (sorted, none) ∧ sorted.Nodup ∧
      (∀ x, x ∈ sorted ↔ x ∈ g.pkgs) ∧ sorted.Perm g.pkgs := by
  rcases sortPhase_spec ord fuel g hwf with h1 | ⟨_, h2⟩ | ⟨l, h1, _, h3, h4, _⟩
  · exact absurd h1 (sortPhase_terminates ord fuel g hwf hf)
  · exact absurd h2 hac
  · exact ⟨l, h1, h3, h4, (List.perm_ext_iff_of_nodup h3 hwf.nodupPkgs).2 h4⟩

/-- The table built for the diamond scenario is sorted without error into a
permutation of its four keys. -/
theorem sortPhase_returns_every_node_once_witness :
    WellFormed (builtGraph diamondDeps [0, 0, 0, 0, 0] ["app"]) ∧
    ¬ HasCycle (builtGraph diamondDeps [0, 0, 0, 0, 0] ["app"]) ∧
    (builtGraph diamondDeps [0, 0, 0, 0, 0] ["app"]).pkgs.length < 5 ∧
    ∃ sorted,
      sortPhase MapOrder.reversed 5 (builtGraph diamondDeps [0, 0, 0, 0, 0] ["app"]) =
        some (sorted, none) ∧ sorted.Nodup ∧
      (∀ x, x ∈ sorted ↔ x ∈ (builtGraph diamondDeps [0, 0, 0, 0, 0] ["app"]).pkgs) ∧
      sorted.Perm (builtGraph diamondDeps [0, 0, 0, 0, 0] ["app"]).pkgs :=
  have hwf := builtGraph_wellFormed diamondDeps [0, 0, 0, 0, 0] ["app"]
  have hac : ¬ HasCycle (builtGraph diamondDeps [0, 0, 0, 0, 0] ["app"]) :=
    not_hasCycle_of_sorted MapOrder.stored 5 _ hwf ["libcore", "lib2", "lib1", "app"]
      (by decide)
  ⟨hwf, hac, by decide,
    sortPhase_returns_every_node_once MapOrder.reversed 5 _ hwf hac (by decide)⟩

/-- C3: on the table left by the build phase, the sort phase, given fuel for
one round per key and one more, always returns; it returns the cycle error
with the nil sequence exactly when the table has a dependency cycle (a package
that depends on itself included), and a sequence without error otherwise. -/
theorem sortPhase_cycle_error_iff (ord : MapOrder) (fuel : Nat) (sched : List Nat)
    (targets : List String) (getDeps : String → Except Error (List String))
    (hf : (builtGraph getDeps sched targets).pkgs.length < fuel) :
    (sortPhase ord fuel (builtGraph getDeps sched targets) = some ([], some cycleError) ↔
      HasCycle (builtGraph getDeps sched targets)) ∧
    (sortPhase ord fuel (builtGraph getDeps sched targets) = some ([], some cycleError) ∨
      ∃ sorted, sortPhase ord fuel (builtGraph getDeps sched targets) = some (sorted, none)) := by
  have hwf := builtGraph_wellFormed getDeps sched targets
  have hterm := sortPhase_terminates ord fuel _ hwf hf
  rcases sortPhase_spec ord fuel _ hwf with h1 | ⟨h1, h2⟩ | ⟨l, h1, h2, _⟩
  · exact absurd h1 hterm
  · exact ⟨⟨fun _ => h2, fun _ => h1⟩, Or.inl h1⟩
  · refine ⟨⟨fun h => ?_, fun h => absurd h h2⟩, Or.inr ⟨l, h1⟩⟩
    rw [h1] at h
    cases h

/-- The cycle scenario x → y → x: the built table has a cycle and `tsort`
returns the cycle error with the nil sequence. -/
theorem sortPhase_cycle_error_iff_witness :
    (builtGraph cycleDeps [0, 0, 0] ["x"]).pkgs.length < 3 ∧
    tsort MapOrder.stored 3 [0, 0, 0] ["x"] cycleDeps = some ([], some cycleError) ∧
    HasCycle (builtGraph cycleDeps [0, 0, 0] ["x"]) :=
  ⟨by decide, by decide,
    (sortPhase_cycle_error_iff MapOrder.stored 3 [0, 0, 0] ["x"] cycleDeps (by decide)).1.1
      (by decide)⟩

theorem build_done (getDeps : String → Except Error (List String)) (sched : List Nat)
    (targets : List String) (h : (build getDeps sched targets).isSome = true) :
    ∃ s, build getDeps sched targets = some s ∧ builtGraph getDeps sched targets = s.g ∧
      BuildInv getDeps targets s ∧ s.pending = [] := by
  obtain ⟨s, hs⟩ := Option.isSome_iff_exists.1 h
  obtain ⟨H, hp⟩ := build_inv getDeps targets sched s hs
  refine ⟨s, hs, ?_, H, hp⟩
  unfold builtGraph
  rw [hs]

/-- A build that ends is a run of pending calls from the initial state. -/
theorem buildLoop_eq_runTasks (getDeps : String → Except Error (List String))
    (sched : List Nat) (s s' : BuildState) (h : buildLoop getDeps sched s = some s') :
    ∃ choices, runTasks getDeps choices s = s' := by
  induction sched generalizing s with
  | nil =>
    unfold buildLoop at h
    split at h
    · cases h; exact ⟨[], rfl⟩
    · cases h
  | cons c cs ih =>
    unfold buildLoop at h
    split at h
    · cases h; exact ⟨[], rfl⟩
    · obtain ⟨choices, hc⟩ := ih _ h
      exact ⟨(c % s.pending.length) :: choices, hc⟩

/-- C4: when the packages reachable from the targets lie in a finite list and
the schedule is long enough for the build to end, a failure of `getDeps` for
one reachable package makes `tsort` return the nil sequence together with an
error that `getDeps` returned for a reachable package; the sort phase is not
run. -/
theorem tsort_fetch_failure (ord : MapOrder) (fuel : Nat) (sched : List Nat)
    (targets : List String) (getDeps : String → Except Error (List String))
    (U : List String) (p : String) (e0 : Error)
    (hU : ∀ x, Reach getDeps targets x → x ∈ U)
    (hlen : buildBound getDeps targets U ≤ sched.length)
    (hp : Reach getDeps targets p) (he : getDeps p = Except.error e0) :
    ∃ q e, Reach getDeps targets q ∧ getDeps q = Except.error e ∧
      tsort ord fuel sched targets getDeps = some ([], some e) := by
  obtain ⟨s, hs⟩ := build_terminates getDeps targets U hU sched hlen
  obtain ⟨H, hpend⟩ := build_inv getDeps targets sched s hs
  have hpc : p ∈ s.calls := (H.calls_iff p).2 (reach_mem_pkgs getDeps targets s H hpend p hp)
  cases herr : s.err with
  | none =>
    obtain ⟨l, hl⟩ := H.err_complete herr p hpc
    rw [he] at hl
    cases hl
  | some e =>
    obtain ⟨q, hq, hqe⟩ := H.err_sound e herr
    refine ⟨q, e, H.pkgs_reach q ((H.calls_iff q).1 hq), hqe, ?_⟩
    unfold tsort
    rw [hs]
    dsimp only
    rw [herr]

/-- The build from app, whose dependency lib1 cannot be looked up, returns
the error of that lookup and the nil sequence. -/
theorem tsort_fetch_failure_witness :
    buildBound failingDeps ["app"] ["app", "lib1", "lib2"] ≤ [0, 0, 0].length ∧
    failingDeps "lib1" = Except.error "exit status 1" ∧
    ∃ q e, Reach failingDeps ["app"] q ∧ failingDeps q = Except.error e ∧
      tsort MapOrder.stored 4 [0, 0, 0] ["app"] failingDeps = some ([], some e) :=
  ⟨by decide, by rfl,
    tsort_fetch_failure MapOrder.stored 4 [0, 0, 0] ["app"] failingDeps ["app", "lib1", "lib2"]
      "lib1" "exit status 1"
      (reach_subset failingDeps ["app"] ["app", "lib1", "lib2"] (by decide) (by decide))
      (by decide)
      (@Reach.dep failingDeps ["app"] "app" "lib1" (Reach.target (by decide)) (by decide))
      (by rfl)⟩

/-- C5: after any number of `add` calls of a build, run in any order,
`getDeps` has been called exactly once for every registered package and never
for another one, however many targets or dependents name the package; in the
diamond scenario it is called once for libcore. -/
theorem getDeps_called_once (getDeps : String → Except Error (List String))
    (targets : List String) (choices : List Nat) (p : String) :
    (runTasks getDeps choices (initState targets)).calls.count p =
      (if p ∈ (runTasks getDeps choices (initState targets)).g.pkgs then 1 else 0) ∧
    (build diamondDeps [0, 0, 0, 0, 0] ["app"]).map (fun s => s.calls.count "libcore") =
      some 1 := by
  have H := buildInv_runTasks getDeps targets choices _ (buildInv_init getDeps targets)
  refine ⟨?_, by decide⟩
  by_cases hp : p ∈ (runTasks getDeps choices (initState targets)).g.pkgs
  · rw [if_pos hp]
    exact List.count_eq_one_of_mem H.calls_nodup ((H.calls_iff p).2 hp)
  · rw [if_neg hp]
    exact List.count_eq_zero_of_not_mem (fun h => hp ((H.calls_iff p).1 h))

/-- C6, as stated, fails: in the cycle scenario x → y → x the error returned
by `tsort` does not contain the name x. -/
theorem tsort_cycle_error_names_counterexample :
    ¬ ∃ e, tsort MapOrder.stored 3 [0, 0, 0] ["x"] cycleDeps = some ([], some e) ∧
      Names e "x" ∧ Names e "y" := by
  rintro ⟨e, h, hx, _⟩
  have h0 : tsort MapOrder.stored 3 [0, 0, 0] ["x"] cycleDeps = some ([], some cycleError) := by
    decide
  rw [h0] at h
  cases h
  revert hx
  decide

/-- C6, amended: when `getDeps` never fails, every error returned by `tsort`
comes with the nil sequence and is the fixed error "cycle detected", and the
built table then has a dependency cycle. -/
theorem tsort_cycle_error_fixed (ord : MapOrder) (fuel : Nat) (sched : List Nat)
    (targets : List String) (fetch : String → List String) (l : List String) (e : Error)
    (h : tsort ord fuel sched targets (okDeps fetch) = some (l, some e)) :
    l = [] ∧ e = cycleError ∧ HasCycle (builtGraph (okDeps fetch) sched targets) := by
  have hwf := builtGraph_wellFormed (okDeps fetch) sched targets
  unfold tsort at h
  unfold builtGraph at hwf ⊢
  cases hb : build (okDeps fetch) sched targets with
  | none => rw [hb] at h; cases h
  | some s =>
    rw [hb] at h hwf
    dsimp only at h hwf ⊢
    cases he : s.err with
    | some e1 =>
      obtain ⟨x, _, hx⟩ := (build_inv (okDeps fetch) targets sched s hb).1.err_sound e1 he
      cases hx
    | none =>
      rw [he] at h
      dsimp only at h
      rcases sortPhase_spec ord fuel s.g hwf with h1 | ⟨h1, h2⟩ | ⟨l1, h1, _⟩
      · rw [h1] at h; cases h
      · rw [h1] at h
        cases h
        exact ⟨rfl, rfl, h2⟩
      · rw [h1] at h; cases h

/-- In the cycle scenario the error is "cycle detected". -/
theorem tsort_cycle_error_fixed_witness :
    tsort MapOrder.stored 3 [0, 0, 0] ["x"] (okDeps cycleFetch) =
      some ([], some "cycle detected") ∧
    (([] : List String) = [] ∧ "cycle detected" = cycleError ∧
      HasCycle (builtGraph (okDeps cycleFetch) [0, 0, 0] ["x"])) :=
  ⟨by decide,
    tsort_cycle_error_fixed MapOrder.stored 3 [0, 0, 0] ["x"] cycleFetch [] "cycle detected"
      (by decide)⟩

/-- C7, as stated, fails: with the single target whose name is the empty
string and a `getDeps` that reports no dependency at all, the built table has
the edge from that package to itself. -/
theorem build_edges_iff_fetch_counterexample :
    ¬ ∀ A B, A ∈ (builtGraph (okDeps (fun _ => [])) [0] [""]).pkgs →
      (B ∈ (builtGraph (okDeps (fun _ => [])) [0] [""]).deps A ↔
        B ∈ (fun _ => ([] : List String)) A) := by
  intro h
  have h1 := (h "" "" (by decide)).1 (by decide)
  simp at h1

/-- C7, amended: for every target list and every always-succeeding `getDeps`,
in the table of a build that has ended the edges out of a registered package A
other than the empty name are exactly the names in the list returned for A;
and registering a target other than the empty name, while the empty name is
not registered, records no edge. -/
theorem build_edges_iff_fetch (fetch : String → List String) (targets : List String)
    (sched : List Nat) (A B : String)
    (hA : A ∈ (builtGraph (okDeps fetch) sched targets).pkgs) (hne : A ≠ "") :
    (B ∈ (builtGraph (okDeps fetch) sched targets).deps A ↔ B ∈ fetch A) ∧
    ∀ (g : Graph) (t : String), "" ∉ g.pkgs → t ≠ "" → lockSection g t "" = getOrCreate g t := by
  constructor
  · unfold builtGraph at hA ⊢
    cases hb : build (okDeps fetch) sched targets with
    | none =>
      rw [hb] at hA
      simp [Graph.empty] at hA
    | some s =>
      rw [hb] at hA
      dsimp only at hA ⊢
      obtain ⟨H, hp⟩ := build_inv (okDeps fetch) targets sched s hb
      exact deps_iff_of_done (okDeps fetch) targets s H hp A B hA hne
  · intro g t hg ht
    unfold lockSection recordEdge
    rw [if_neg]
    rw [mem_pkgs_getOrCreate]
    rintro (h | h)
    · exact hg h
    · exact ht h.symm

/-- In the diamond scenario the edges out of app are those to lib1 and lib2. -/
theorem build_edges_iff_fetch_witness :
    "app" ∈ (builtGraph (okDeps diamondFetch) [0, 0, 0, 0, 0] ["app"]).pkgs ∧ "app" ≠ "" ∧
    ("lib1" ∈ (builtGraph (okDeps diamondFetch) [0, 0, 0, 0, 0] ["app"]).deps "app" ↔
      "lib1" ∈ diamondFetch "app") :=
  ⟨by decide, by decide,
    (build_edges_iff_fetch diamondFetch ["app"] [0, 0, 0, 0, 0] "app" "lib1" (by decide)
      (by decide)).1⟩

/-- C8: for every target list and every always-succeeding `getDeps` whose
reachable packages lie in a finite list, the build ends under every schedule
long enough, and the registered names are then exactly the packages reachable
from the targets: the targets, the names returned for a reachable name, and
nothing else. -/
theorem build_nodes_eq_reachable (fetch : String → List String) (targets U : List String)
    (sched : List Nat) (hU : ∀ x, Reach (okDeps fetch) targets x → x ∈ U)
    (hlen : buildBound (okDeps fetch) targets U ≤ sched.length) :
    ∃ s, build (okDeps fetch) sched targets = some s ∧
      ∀ x, x ∈ s.g.pkgs ↔ Reach (okDeps fetch) targets x := by
  obtain ⟨s, hs⟩ := build_terminates (okDeps fetch) targets U hU sched hlen
  obtain ⟨H, hp⟩ := build_inv (okDeps fetch) targets sched s hs
  exact ⟨s, hs, fun x => ⟨H.pkgs_reach x, reach_mem_pkgs (okDeps fetch) targets s H hp x⟩⟩

/-- The build of the diamond scenario ends after five `add` calls with the
reachable packages registered. -/
theorem build_nodes_eq_reachable_witness :
    buildBound (okDeps diamondFetch) ["app"] ["app", "lib1", "lib2", "libcore"] ≤
      [1, 0, 1, 0, 0].length ∧
    ∃ s, build (okDeps diamondFetch) [1, 0, 1, 0, 0] ["app"] = some s ∧
      ∀ x, x ∈ s.g.pkgs ↔ Reach (okDeps diamondFetch) ["app"] x :=
  ⟨by decide,
    build_nodes_eq_reachable diamondFetch ["app"] ["app", "lib1", "lib2", "libcore"]
      [1, 0, 1, 0, 0]
      (reach_subset (okDeps diamondFetch) ["app"] ["app", "lib1", "lib2", "libcore"]
        (by decide) (by decide))
      (by decide)⟩

/-- C9: after any sequence of `add` calls, whatever their arguments, B is in
the `deps` of A exactly when A is in the `revdeps` of B, and both ends of
every edge are keys of `pkgs`. -/
theorem add_keeps_edges_symmetric (getDeps : String → Except Error (List String))
    (targets : List String) (regs : List (String × String)) (A B : String) :
    (B ∈ (addAll getDeps regs (initState targets)).g.deps A ↔
      A ∈ (addAll getDeps regs (initState targets)).g.revdeps B) ∧
    (B ∈ (addAll getDeps regs (initState targets)).g.deps A →
      A ∈ (addAll getDeps regs (initState targets)).g.pkgs ∧
        B ∈ (addAll getDeps regs (initState targets)).g.pkgs) := by
  have key : ∀ (regs : List (String × String)) (s : BuildState),
      (∀ a b, (b ∈ s.g.deps a ↔ a ∈ s.g.revdeps b) ∧
        (b ∈ s.g.deps a → a ∈ s.g.pkgs ∧ b ∈ s.g.pkgs)) →
      ∀ a b, (b ∈ (addAll getDeps regs s).g.deps a ↔ a ∈ (addAll getDeps regs s).g.revdeps b) ∧
        (b ∈ (addAll getDeps regs s).g.deps a →
          a ∈ (addAll getDeps regs s).g.pkgs ∧ b ∈ (addAll getDeps regs s).g.pkgs) := by
    intro regs
    induction regs with
    | nil => intro s H; exact H
    | cons c cs ih =>
      intro s H
      exact ih _ (symmetric_add getDeps s c.1 c.2 H)
  apply key
  intro a b
  simp [initState, Graph.empty]

/-- C10, as stated, fails: with the targets b, b and b depending on the
package whose name is the empty string, one order of the `add` calls gives a
table without the edge from the empty name to b, and `tsort` an ordering;
another order gives that edge, and `tsort` the cycle error. -/
theorem build_schedule_independent_counterexample :
    (build (okDeps emptyNameFetch) [0, 0, 0] ["b", "b"]).isSome = true ∧
    (build (okDeps emptyNameFetch) [0, 1, 0] ["b", "b"]).isSome = true ∧
    (¬ ∀ A B, B ∈ (builtGraph (okDeps emptyNameFetch) [0, 0, 0] ["b", "b"]).deps A ↔
      B ∈ (builtGraph (okDeps emptyNameFetch) [0, 1, 0] ["b", "b"]).deps A) ∧
    tsort MapOrder.stored 3 [0, 0, 0] ["b", "b"] (okDeps emptyNameFetch) =
      some (["", "b"], none) ∧
    tsort MapOrder.stored 3 [0, 1, 0] ["b", "b"] (okDeps emptyNameFetch) =
      some ([], some cycleError) := by
  refine ⟨by decide, by decide, ?_, by decide, by decide⟩
  intro h
  have h1 : "b" ∈ (builtGraph (okDeps emptyNameFetch) [0, 0, 0] ["b", "b"]).deps "" :=
    (h "" "b").2 (by decide)
  revert h1
  decide

/-- C10, amended: for fixed targets and a fixed always-succeeding `getDeps`,
any two orders of the `add` calls under which the build ends give the same
registered names and the same edges out of every package other than the empty
name; when the empty name is not registered, they give the same edges
altogether. -/
theorem build_schedule_independent (fetch : String → List String) (targets : List String)
    (sched1 sched2 : List Nat)
    (h1 : (build (okDeps fetch) sched1 targets).isSome = true)
    (h2 : (build (okDeps fetch) sched2 targets).isSome = true) :
    (∀ x, x ∈ (builtGraph (okDeps fetch) sched1 targets).pkgs ↔
      x ∈ (builtGraph (okDeps fetch) sched2 targets).pkgs) ∧
    (∀ A B, A ≠ "" → (B ∈ (builtGraph (okDeps fetch) sched1 targets).deps A ↔
      B ∈ (builtGraph (okDeps fetch) sched2 targets).deps A)) ∧
    ("" ∉ (builtGraph (okDeps fetch) sched1 targets).pkgs →
      ∀ A B, B ∈ (builtGraph (okDeps fetch) sched1 targets).deps A ↔
        B ∈ (builtGraph (okDeps fetch) sched2 targets).deps A) := by
  obtain ⟨s1, _, e1, H1, p1⟩ := build_done (okDeps fetch) sched1 targets h1
  obtain ⟨s2, _, e2, H2, p2⟩ := build_done (okDeps fetch) sched2 targets h2
  rw [e1, e2]
  have hk : ∀ x, x ∈ s1.g.pkgs ↔ x ∈ s2.g.pkgs := by
    intro x
    constructor
    · exact fun h => reach_mem_pkgs (okDeps fetch) targets s2 H2 p2 x (H1.pkgs_reach x h)
    · exact fun h => reach_mem_pkgs (okDeps fetch) targets s1 H1 p1 x (H2.pkgs_reach x h)
  have hout : ∀ A B, A ∉ s1.g.pkgs → (B ∈ s1.g.deps A ↔ B ∈ s2.g.deps A) := by
    intro A B hA
    constructor
    · exact fun h => absurd (H1.closed A B h).1 hA
    · exact fun h => absurd ((hk A).2 (H2.closed A B h).1) hA
  have hin : ∀ A B, A ≠ "" → (B ∈ s1.g.deps A ↔ B ∈ s2.g.deps A) := by
    intro A B hne
    by_cases hA : A ∈ s1.g.pkgs
    · rw [deps_iff_of_done (okDeps fetch) targets s1 H1 p1 A B hA hne,
        deps_iff_of_done (okDeps fetch) targets s2 H2 p2 A B ((hk A).1 hA) hne]
    · exact hout A B hA
  refine ⟨hk, hin, ?_⟩
  intro he A B
  by_cases hne : A = ""
  · exact hout A B (hne ▸ he)
  · exact hin A B hne

/-- Two orders of the `add` calls of the diamond scenario give the same
table. -/
theorem build_schedule_independent_witness :
    (build (okDeps diamondFetch) [0, 0, 0, 0, 0] ["app"]).isSome = true ∧
    (build (okDeps diamondFetch) [0, 1, 0, 1, 0] ["app"]).isSome = true ∧
    (∀ A B, A ≠ "" →
      (B ∈ (builtGraph (okDeps diamondFetch) [0, 0, 0, 0, 0] ["app"]).deps A ↔
        B ∈ (builtGraph (okDeps diamondFetch) [0, 1, 0, 1, 0] ["app"]).deps A)) :=
  ⟨by decide, by decide,
    (build_schedule_independent diamondFetch ["app"] [0, 0, 0, 0, 0] [0, 1, 0, 1, 0]
      (by decide) (by decide)).2.1⟩

end ApkDag
